import Mathlib

/-!
Verification of the kv-entity core (an entity–component–relation layer over an
ordered transactional KV store) against its natural-language specification.

Keys and values of the store are byte strings, modelled as `List Nat` (one entry
per byte; every key the core produces is ASCII, so the UTF-8 byte view and the
character view agree).  Pure fragments of the Rust source are translated into
Lean functions; the transactional operations are modelled as functions from the
relevant read results to the batch of mutations they enqueue together with the
commit/rollback outcome.  Paged scans, whose Rust originals are unbounded loops,
are given a fuel parameter; every top-level entry point passes fuel
`store.length + 1`, which is shown (or evaluated) to be sufficient.
-/

/-- Byte strings: keys and values of the KV store, one natural number per byte. -/
abbrev Bytes := List Nat

/-- View of an ASCII string literal as its byte list. -/
def str (s : String) : Bytes := s.data.map Char.toNat

/-- Strict lexicographic order on byte strings, the order in which the KV engine
keeps keys. -/
def lexLt : Bytes → Bytes → Bool
  | [], [] => false
  | [], _ :: _ => true
  | _ :: _, [] => false
  | a :: as, b :: bs => a < b || (a == b && lexLt as bs)

/-- Non-strict companion of `lexLt`. -/
def lexLe (a b : Bytes) : Bool := !lexLt b a

/-- One step of `next_key`, working on the reversed byte list: the first byte
below `0xFF` (that is, the last such byte of the original key) is incremented
and the bytes before it (after it in the original key) are kept; `none` when
every byte is `0xFF`. -/
def bumpRev : Bytes → Option Bytes
  | [] => none
  | b :: rest => if b < 255 then some ((b + 1) :: rest) else (bumpRev rest).map (b :: ·)

/-- Model of `next_key` (`src/kv-entity/src/utils.rs` lines 7–16 and the copy in
`src/kv-entity/src/db.rs` lines 433–442): walk the key from its last byte towards
the front, increment the first byte `< 0xFF` found and return the key with all
other bytes unchanged; if no byte is below `0xFF` (including the empty key) the
key is returned unchanged. -/
def next_key (k : Bytes) : Bytes :=
  match bumpRev k.reverse with
  | some r => r.reverse
  | none => k

/-- Fixed-width zero-padded decimal rendering of a natural number, as produced by
the Rust `format!` width specifiers of the derive macro
(`src/kv-entity-derive/src/lib.rs`, `generate_numeric_encoding`): `padDec w n`
is the `w`-digit string of `n` (for `n < 10 ^ w`), as ASCII digit bytes. -/
def padDec : Nat → Nat → Bytes
  | 0, _ => []
  | w + 1, n => (48 + n / 10 ^ w) :: padDec w (n % 10 ^ w)

/-- Encoder for `u8` indexed fields: three decimal digits, zero padded. -/
def encode_u8 (v : Nat) : Bytes := padDec 3 v

/-- Encoder for `u16` indexed fields: five decimal digits. -/
def encode_u16 (v : Nat) : Bytes := padDec 5 v

/-- Encoder for `u32` indexed fields: ten decimal digits. -/
def encode_u32 (v : Nat) : Bytes := padDec 10 v

/-- Encoder for `u64` indexed fields: twenty decimal digits. -/
def encode_u64 (v : Nat) : Bytes := padDec 20 v

/-- Encoder for `u128` indexed fields: thirty-nine decimal digits. -/
def encode_u128 (v : Nat) : Bytes := padDec 39 v

/-- Encoder for `usize` indexed fields: the derive macro treats it as `u64`. -/
def encode_usize (v : Nat) : Bytes := padDec 20 v

/-- Encoder for `i8`: bias by 128 so the minimum maps to 0, then three digits. -/
def encode_i8 (v : Int) : Bytes := padDec 3 (v + 128).toNat

/-- Encoder for `i16`: bias by 32768, then five digits. -/
def encode_i16 (v : Int) : Bytes := padDec 5 (v + 32768).toNat

/-- Encoder for `i32`: bias by 2^31, then ten digits. -/
def encode_i32 (v : Int) : Bytes := padDec 10 (v + 2147483648).toNat

/-- Encoder for `i64`: bias by 2^63, then twenty digits. -/
def encode_i64 (v : Int) : Bytes := padDec 20 (v + 9223372036854775808).toNat

/-- Encoder for `i128`: the source uses `wrapping_add` of the bias 2^127 and casts
to `u128`, which on the two's-complement representation is addition modulo 2^128;
then thirty-nine digits. -/
def encode_i128 (v : Int) : Bytes :=
  padDec 39 ((v + 170141183460469231731687303715884105728).emod (2 ^ 128)).toNat

/-- Encoder for `isize`: the derive macro treats it as `i64`. -/
def encode_isize (v : Int) : Bytes := padDec 20 (v + 9223372036854775808).toNat

/-- The sortable-bits transform the derive macro applies to an `f32` bit pattern:
negative sign bit means all 32 bits are flipped, otherwise only the sign bit is
flipped.  On `bits < 2^32` flipping all bits is `2^32 - 1 - bits` and setting the
sign bit of a non-negative pattern is `bits + 2^31`. -/
def sortable32 (bits : Nat) : Nat :=
  if 2 ^ 31 ≤ bits then 2 ^ 32 - 1 - bits else bits + 2 ^ 31

/-- Encoder for `f32` indexed fields, on the IEEE-754 bit pattern of the value:
sortable-bits transform, then ten decimal digits. -/
def encode_f32 (bits : Nat) : Bytes := padDec 10 (sortable32 bits)

/-- The sortable-bits transform for `f64` bit patterns. -/
def sortable64 (bits : Nat) : Nat :=
  if 2 ^ 63 ≤ bits then 2 ^ 64 - 1 - bits else bits + 2 ^ 63

/-- Encoder for `f64` indexed fields, on the IEEE-754 bit pattern of the value. -/
def encode_f64 (bits : Nat) : Bytes := padDec 20 (sortable64 bits)

/-- An `f32` bit pattern is a NaN when its exponent field is all ones and its
mantissa is non-zero, i.e. when the pattern without its sign bit exceeds
`0x7F800000 = 2139095040`. -/
def isNaN32 (bits : Nat) : Bool := 2139095040 < bits % 2 ^ 31

/-- Sign-magnitude integer key of an `f32` bit pattern: IEEE-754 is designed so
that, NaNs aside, comparing two floats of like sign equals comparing their
magnitude bits, with both zero patterns mapping to the same key 0. -/
def f32key (bits : Nat) : Int :=
  if 2 ^ 31 ≤ bits then -((bits - 2 ^ 31 : Nat) : Int) else (bits : Int)

/-- IEEE-754 `<` on `f32` bit patterns: false when either operand is NaN,
otherwise the sign-magnitude key order (under which `-0.0` equals `0.0`). -/
def f32lt (a b : Nat) : Bool := !isNaN32 a && !isNaN32 b && decide (f32key a < f32key b)

/-- NaN test for `f64` bit patterns (`0x7FF0000000000000 = 9218868437227405312`). -/
def isNaN64 (bits : Nat) : Bool := 9218868437227405312 < bits % 2 ^ 63

/-- Sign-magnitude integer key of an `f64` bit pattern. -/
def f64key (bits : Nat) : Int :=
  if 2 ^ 63 ≤ bits then -((bits - 2 ^ 63 : Nat) : Int) else (bits : Int)

/-- IEEE-754 `<` on `f64` bit patterns. -/
def f64lt (a b : Nat) : Bool := !isNaN64 a && !isNaN64 b && decide (f64key a < f64key b)

/-- Direction tag of a relation edge row (`src/kv-entity/src/utils.rs`). -/
inductive RelationDirection
  | In
  | Out
  | Both
deriving DecidableEq

/-- Key of a component payload row: `component/single/{TypePath}/{EntityID}`.
Entities appear by their textual form (spec §3, modelled from the spec because
the revision of `db.rs` defining `EntityID` is not under src/): `Entity x` is
`"e-" ++ x`, `Resource` is `"resource"`, the scan sentinels `Empty` and `Max`
are `""` and `"~"`.  Throughout this file entities are passed as those bytes. -/
def component_data_path (tp e : Bytes) : Bytes :=
  str "component/single/" ++ tp ++ str "/" ++ e

/-- Key of a secondary-index row:
`component/index/{TypePath}/{field}/{encoded_value}/{EntityID}`. -/
def component_index_path (tp f v e : Bytes) : Bytes :=
  str "component/index/" ++ tp ++ str "/" ++ f ++ str "/" ++ v ++ str "/" ++ e

/-- Key of the per-entity metadata row: `entity/metadata/{EntityID}`. -/
def entity_metadata_path (e : Bytes) : Bytes := str "entity/metadata/" ++ e

/-- Key of an edge payload row: `relation/data/{TypePath}/{A}/{B}`. -/
def relation_data_path (tp a b : Bytes) : Bytes :=
  str "relation/data/" ++ tp ++ str "/" ++ a ++ str "/" ++ b

/-- Key of a directional edge marker row
(`relation/edge/{A}/{TypePath}/{in|out}/{B}`); with direction `Both` the
source emits the bare prefix form `relation/edge/{A}/{TypePath}/{B}`, used
only as a scan bound. -/
def relation_edge_path (tp a b : Bytes) (d : RelationDirection) : Bytes :=
  match d with
  | RelationDirection.In => str "relation/edge/" ++ a ++ str "/" ++ tp ++ str "/in/" ++ b
  | RelationDirection.Out => str "relation/edge/" ++ a ++ str "/" ++ tp ++ str "/out/" ++ b
  | RelationDirection.Both => str "relation/edge/" ++ a ++ str "/" ++ tp ++ str "/" ++ b

/-- Modelled from the spec: `ComponentArchetype` is generated by prost from
`protobuf/metadata.proto`, which is not under src/.  Per spec §3 it is a mapping
from indexed field name to the last encoded value written for that field (empty
when never indexed); modelled as an association list in iteration order. -/
structure ComponentArchetype where
  index_keys : List (Bytes × Bytes)
deriving DecidableEq

/-- Modelled from the spec: `EntityMetadata` (also from the missing
`metadata.proto`) maps component type-paths to their archetypes. -/
structure EntityMetadata where
  component_archetypes : List (Bytes × ComponentArchetype)
deriving DecidableEq

/-- Association-list lookup (first match), modelling map access. -/
def alookup {α : Type} (k : Bytes) : List (Bytes × α) → Option α
  | [] => none
  | kv :: rest => if k = kv.1 then some kv.2 else alookup k rest

/-- Association-list update: replace the entry in place when present, append
otherwise (the position of an existing entry is preserved, as with the map
`entry` API). -/
def aset {α : Type} (k : Bytes) (v : α) : List (Bytes × α) → List (Bytes × α)
  | [] => [(k, v)]
  | kv :: rest => if k = kv.1 then (k, v) :: rest else kv :: aset k v rest

/-- Association-list removal of the entry for a key, modelling map `remove`. -/
def aremove {α : Type} (k : Bytes) : List (Bytes × α) → List (Bytes × α)
  | [] => []
  | kv :: rest => if k = kv.1 then rest else kv :: aremove k rest

/-- Mutation operations of the KV engine. -/
inductive Op
  | Put
  | Del
deriving DecidableEq

/-- Value carried by a Put mutation: either plain bytes, or the serialized form
of a metadata record.  The payload codec (prost) is an external dependency; its
encoding is kept opaque by tagging the record itself. -/
inductive MutVal
  | bytes (b : Bytes)
  | metaEnc (m : EntityMetadata)
deriving DecidableEq

/-- A batched mutation `{key, op, value}` as sent to the engine. -/
structure Mutation where
  key : Bytes
  op : Op
  value : MutVal
deriving DecidableEq

/-- Error taxonomy of the core (`src/kv-entity/src/error.rs`); only the variants
the modelled operations can produce appear. -/
inductive Err
  | NotFound
deriving DecidableEq

/-- The `HashMap` the attach routine collects `value.indexed_fields()` into:
on repeated field names the last pair wins, hence the reversed lookup. -/
def freshLookup (fresh : List (Bytes × Bytes)) (f : Bytes) : Option Bytes :=
  alookup f fresh.reverse

/-- Body of the per-field loop of `attach_component_in_txn`
(`src/kv-entity/src/entity_handler.rs` lines 455–481).  The accumulator carries
the pending mutations and the updated `index_keys` entries; `fk` is the current
`(field, previous encoded value)` entry.  A Del of the old index row is pushed
when the previous value is non-empty; when the fresh encodings contain the
field, a Put of the new index row (value: the entity-id text) is pushed and the
entry is updated to the fresh value. -/
def attachStep (tp e : Bytes) (fresh : List (Bytes × Bytes))
    (acc : List Mutation × List (Bytes × Bytes)) (fk : Bytes × Bytes) :
    List Mutation × List (Bytes × Bytes) :=
  let acc1 := if fk.2 ≠ [] then
      acc.1 ++ [⟨component_index_path tp fk.1 fk.2 e, Op.Del, MutVal.bytes []⟩]
    else acc.1
  match freshLookup fresh fk.1 with
  | none => (acc1, acc.2 ++ [fk])
  | some nv =>
    (acc1 ++ [⟨component_index_path tp fk.1 nv e, Op.Put, MutVal.bytes e⟩],
     acc.2 ++ [(fk.1, nv)])

/-- Model of `EntityHandler::attach_component_in_txn`
(`src/kv-entity/src/entity_handler.rs` lines 436–494): given the pending
mutation batch, the metadata record and the fresh `(field, encoded)` pairs of
the component value, look up the archetype entry for the type (created with an
empty value per indexed field name when absent), run the per-field loop over its
entries, append the payload Put of `component/single/{T}/{e}`, and return the
extended batch together with the updated metadata. -/
def attach_component_in_txn (tp : Bytes) (field_names : List Bytes) (e : Bytes)
    (muts : List Mutation) (meta : EntityMetadata) (fresh : List (Bytes × Bytes))
    (payload : Bytes) : List Mutation × EntityMetadata :=
  let arche := (alookup tp meta.component_archetypes).getD
    ⟨field_names.map (fun f => (f, []))⟩
  let p := arche.index_keys.foldl (attachStep tp e fresh) (muts, [])
  (p.1 ++ [⟨component_data_path tp e, Op.Put, MutVal.bytes payload⟩],
   ⟨aset tp ⟨p.2⟩ meta.component_archetypes⟩)

/-- Outcome of a modelled transactional operation: the writes issued (batched
mutations followed by the direct put/delete calls, in program order), whether
the transaction was committed, whether it was explicitly rolled back, and the
error surfaced, if any. -/
structure TxnResult where
  mutations : List Mutation
  committed : Bool
  rolledBack : Bool
  error : Option Err
deriving DecidableEq

/-- Model of `EntityHandler::detach` (`src/kv-entity/src/entity_handler.rs`
lines 65–104) as a function of the metadata read inside the transaction.  With
indexed fields: missing metadata rolls back and returns NotFound; a metadata
record without an archetype entry for the type returns NotFound through the
`?` operator with no rollback; otherwise one Del per recorded `index_keys`
value — the source uses the recorded value itself as the key to delete — then
the metadata row is rewritten without the type's entry and the payload row is
deleted, and the transaction commits.  Without indexed fields only the payload
row is deleted. -/
def detach (tp : Bytes) (field_names : List Bytes) (e : Bytes)
    (meta? : Option EntityMetadata) : TxnResult :=
  if field_names.isEmpty then
    ⟨[⟨component_data_path tp e, Op.Del, MutVal.bytes []⟩], true, false, none⟩
  else
    match meta? with
    | none => ⟨[], false, true, some Err.NotFound⟩
    | some meta =>
      match alookup tp meta.component_archetypes with
      | none => ⟨[], false, false, some Err.NotFound⟩
      | some arche =>
        ⟨(arche.index_keys.map (fun fk => (⟨fk.2, Op.Del, MutVal.bytes []⟩ : Mutation)))
            ++ [⟨entity_metadata_path e, Op.Put,
                  MutVal.metaEnc ⟨aremove tp meta.component_archetypes⟩⟩,
                ⟨component_data_path tp e, Op.Del, MutVal.bytes []⟩],
         true, false, none⟩

/-- Metadata gate of `EntityHandler::delete_in_txn`
(`src/kv-entity/src/entity_handler.rs` lines 588–591): absent metadata rolls
the transaction back and surfaces NotFound.  Returns (rolledBack, error). -/
def delete_metadata_check (meta? : Option EntityMetadata) : Bool × Option Err :=
  match meta? with
  | none => (true, some Err.NotFound)
  | some _ => (false, none)

/-- The KV store contents visible to a snapshot or transaction: key-value pairs,
kept sorted by key (stated as a hypothesis where needed). -/
abbrev Store := List (Bytes × Bytes)

/-- Point lookup in the store. -/
def slookup (st : Store) (k : Bytes) : Option Bytes :=
  (st.find? (fun kv => kv.1 == k)).map (·.2)

/-- The rows of the store with key in the half-open range `[lo, hi)` — the
range-scan semantics of the ordered engine. -/
def inRange (st : Store) (lo hi : Bytes) : Store :=
  st.filter (fun kv => lexLe lo kv.1 && lexLt kv.1 hi)

/-- One engine scan: the first `n` rows with key in `[lo, hi)`. -/
def scanPage (st : Store) (lo hi : Bytes) (n : Nat) : Store :=
  (inRange st lo hi).take n

/-- Engine batch-get: the existing pairs among the requested keys. -/
def batch_get (st : Store) (keys : List Bytes) : List (Bytes × Bytes) :=
  keys.filterMap (fun k => (slookup st k).map (fun v => (k, v)))

/-- Split a byte string at `/` (byte 47), as Rust's `split('/')`. -/
def splitB : Bytes → List Bytes
  | [] => [[]]
  | c :: rest =>
    match splitB rest with
    | s :: tail => if c = 47 then [] :: s :: tail else (c :: s) :: tail
    | [] => [[c]]

/-- Paged-scan loop of `Filter::query_entity_id_vec`
(`src/kv-entity/src/filter.rs` lines 71–108): scan a page of up to 128 rows,
stop on an empty page, collect the row values (the stored entity-id texts),
advance the start key with `next_key` of the last key, and stop after a short
page.  The loop is given fuel; `query_entity_id_vec` passes `st.length + 1`,
which is always sufficient. -/
def queryLoop : Nat → Store → Bytes → Bytes → List Bytes
  | 0, _, _, _ => []
  | fuel + 1, st, startKey, endKey =>
    match (scanPage st startKey endKey 128).getLast? with
    | none => []
    | some lastKv =>
      let ids := (scanPage st startKey endKey 128).map (·.2)
      if (scanPage st startKey endKey 128).length < 128 then ids
      else ids ++ queryLoop fuel st (next_key lastKv.1) endKey

/-- A filter's condition: equality or range on the encoded field value
(`src/kv-entity/src/filter.rs`). -/
inductive BoundCondition
  | Value (v : Bytes)
  | Range (lo hi : Bytes)

/-- Model of `Filter::query_entity_id_vec`: the scan range runs from
`component/index/{T}/{field}/{start}/{Empty}` to
`component/index/{T}/{field}/{end}/{Max}` with `(start, end)` both the value
for an equality condition and the pair for a range condition. -/
def query_entity_id_vec (st : Store) (tp field : Bytes) (cond : BoundCondition) :
    List Bytes :=
  let p := match cond with
    | BoundCondition.Value v => (v, v)
    | BoundCondition.Range lo hi => (lo, hi)
  queryLoop (st.length + 1) st (component_index_path tp field p.1 [])
    (component_index_path tp field p.2 (str "~"))

/-- Per-row processing of one page of `DB::iterator`
(`src/kv-entity/src/db.rs` lines 76–88): take segment 3 of the `/`-split key
(error when missing), skip the row when it lacks the `e-` prefix (bytes
101, 45), otherwise yield the stripped entity id with the row value.  Returns
the yielded items and the error that ended the stream, if any. -/
def iterPage : Store → List (Bytes × Bytes) × Option Err
  | [] => ([], none)
  | kv :: rest =>
    match (splitB kv.1).get? 3 with
    | none => ([], some Err.NotFound)
    | some seg =>
      match seg with
      | 101 :: 45 :: eid =>
        let p := iterPage rest
        ((eid, kv.2) :: p.1, p.2)
      | _ => iterPage rest

/-- Paged loop of `DB::iterator` (`src/kv-entity/src/db.rs` lines 69–92).
Note the loop takes `kvs.last().ok_or(Error::NotFound)?` *before* checking the
page length, and never checks `is_empty`: an empty page makes the stream yield
`Err(NotFound)` instead of ending. -/
def iterLoop : Nat → Store → Bytes → Bytes → List (Bytes × Bytes) × Option Err
  | 0, _, _, _ => ([], none)
  | fuel + 1, st, startKey, endKey =>
    let kvs := scanPage st startKey endKey 128
    match kvs.getLast? with
    | none => ([], some Err.NotFound)
    | some lastKv =>
      let p := iterPage kvs
      match p.2 with
      | some er => (p.1, some er)
      | none =>
        if kvs.length < 128 then (p.1, none)
        else
          let q := iterLoop fuel st (next_key lastKv.1) endKey
          (p.1 ++ q.1, q.2)

/-- Model of `DB::iterator` (`src/kv-entity/src/db.rs` lines 54–94): paged scan
of `[component/single/{T}/, component/single/{T}/~)`, yielding `(entity id,
payload bytes)`; the result is the yielded items and the terminating error, if
any. -/
def iterator (st : Store) (tp : Bytes) : List (Bytes × Bytes) × Option Err :=
  iterLoop (st.length + 1) st (component_data_path tp []) (component_data_path tp (str "~"))

/-- Direction tag parsed from segment 4 of an edge key.  The source matches
`"in"` and `"out"` and panics (`unreachable!`) otherwise; keys written by the
core always carry one of the two, and the model maps anything else to `Out`. -/
def dirOfSeg (seg : Bytes) : RelationDirection :=
  if seg = str "in" then RelationDirection.In else RelationDirection.Out

/-- Per-page key parsing of `edges_entity_in_txn`
(`src/kv-entity/src/entity_handler.rs` lines 521–532): segment 5 is the other
entity, segment 4 the direction tag; a missing segment surfaces NotFound. -/
def edgesPage : List Bytes → List (Bytes × RelationDirection) × Option Err
  | [] => ([], none)
  | k :: rest =>
    match (splitB k).get? 5, (splitB k).get? 4 with
    | some other, some dseg =>
      let p := edgesPage rest
      ((other, dirOfSeg dseg) :: p.1, p.2)
    | _, _ => ([], some Err.NotFound)

/-- Paged loop of `edges_entity_in_txn` (`src/kv-entity/src/entity_handler.rs`
lines 509–536): `scan_keys` pages of 128, stop on an empty page, parse each key,
advance with `next_key`, stop after a short page. -/
def edgesEntityLoop : Nat → Store → Bytes → Bytes → List (Bytes × RelationDirection) × Option Err
  | 0, _, _, _ => ([], none)
  | fuel + 1, st, startKey, endKey =>
    let ks := (scanPage st startKey endKey 128).map (·.1)
    if h : ks = [] then ([], none)
    else
      let p := edgesPage ks
      match p.2 with
      | some er => (p.1, some er)
      | none =>
        if ks.length < 128 then (p.1, none)
        else
          let q := edgesEntityLoop fuel st (next_key (ks.getLast h)) endKey
          (p.1 ++ q.1, q.2)

/-- Model of `EntityHandler::edges_entity_in_txn` for an entity and direction:
the scan bounds use the `Empty` and `Max` entity sentinels. -/
def edges_entity_in_txn (st : Store) (tp e : Bytes) (d : RelationDirection) :
    List (Bytes × RelationDirection) × Option Err :=
  edgesEntityLoop (st.length + 1) st (relation_edge_path tp e [] d)
    (relation_edge_path tp e (str "~") d)

/-- Model of `EntityHandler::delete_edges` (`src/kv-entity/src/entity_handler.rs`
lines 337–391): scan incident edges with direction `Both`; for each `(other,
direction)` enqueue Dels of `relation_edge_path tp self other direction` and
`relation_edge_path tp other self direction` — the source passes the *same*
direction tag on both sides — plus the Del of the data row oriented by the
direction; commit the batch.  A scan error is surfaced without committing. -/
def delete_edges (st : Store) (tp e : Bytes) : Except Err (List Mutation) :=
  let p := edges_entity_in_txn st tp e RelationDirection.Both
  match p.2 with
  | some er => Except.error er
  | none => Except.ok (p.1.flatMap (fun ed =>
      [⟨relation_edge_path tp e ed.1 ed.2, Op.Del, MutVal.bytes []⟩,
       ⟨relation_edge_path tp ed.1 e ed.2, Op.Del, MutVal.bytes []⟩]
      ++ match ed.2 with
         | RelationDirection.In => [⟨relation_data_path tp e ed.1, Op.Del, MutVal.bytes []⟩]
         | RelationDirection.Out => [⟨relation_data_path tp ed.1 e, Op.Del, MutVal.bytes []⟩]
         | RelationDirection.Both => []))

/-- Data keys reconstructed from one page of edge-marker keys in
`EntityHandler::edges` (`src/kv-entity/src/entity_handler.rs` lines 280–291):
an `in` tag gives `relation/data/{T}/{self}/{other}`, an `out` tag
`relation/data/{T}/{other}/{self}`; a missing segment aborts the page. -/
def edgesDataKeys (tp self : Bytes) : List Bytes → Option (List Bytes)
  | [] => some []
  | k :: rest =>
    match (splitB k).get? 5, (splitB k).get? 4 with
    | some other, some dseg =>
      let dk := if dseg = str "in" then relation_data_path tp self other
        else relation_data_path tp other self
      (edgesDataKeys tp self rest).map (dk :: ·)
    | _, _ => none

/-- Per-row processing of the batch-get results in `EntityHandler::edges`
(lines 295–313): segments 3 and 4 of the data key are the edge's endpoints
`a` and `b`; when `self = a` the yielded tuple is `(b, In, payload)`, otherwise
`(a, Out, payload)`. -/
def edgesData (self : Bytes) : List (Bytes × Bytes) →
    List (Bytes × RelationDirection × Bytes) × Option Err
  | [] => ([], none)
  | dkv :: rest =>
    match (splitB dkv.1).get? 3, (splitB dkv.1).get? 4 with
    | some a, some b =>
      let p := edgesData self rest
      if self = a then ((b, RelationDirection.In, dkv.2) :: p.1, p.2)
      else ((a, RelationDirection.Out, dkv.2) :: p.1, p.2)
    | _, _ => ([], some Err.NotFound)

/-- Paged loop of `EntityHandler::edges` (lines 266–317): `scan_keys` pages of
128 over the direction's marker range, reconstruct the data keys, batch-get
them, and yield one `(other, direction, payload)` per fetched data row. -/
def edgesLoop (tp self : Bytes) : Nat → Store → Bytes → Bytes →
    List (Bytes × RelationDirection × Bytes) × Option Err
  | 0, _, _, _ => ([], none)
  | fuel + 1, st, startKey, endKey =>
    let ks := (scanPage st startKey endKey 128).map (·.1)
    if h : ks = [] then ([], none)
    else
      match edgesDataKeys tp self ks with
      | none => ([], some Err.NotFound)
      | some dks =>
        let p := edgesData self (batch_get st dks)
        match p.2 with
        | some er => (p.1, some er)
        | none =>
          if ks.length < 128 then (p.1, none)
          else
            let q := edgesLoop tp self fuel st (next_key (ks.getLast h)) endKey
            (p.1 ++ q.1, q.2)

/-- Model of `EntityHandler::edges` (`src/kv-entity/src/entity_handler.rs`
lines 244–319) for an entity and a query direction. -/
def edges (st : Store) (tp self : Bytes) (d : RelationDirection) :
    List (Bytes × RelationDirection × Bytes) × Option Err :=
  edgesLoop tp self (st.length + 1) st (relation_edge_path tp self [] d)
    (relation_edge_path tp self (str "~") d)

/-- The three Puts of `EntityHandler::link` (lines 142–193) for an edge from
`a` to `b`: the `in` marker on `a`'s side, the `out` marker on `b`'s side, and
the data row `relation/data/{T}/{a}/{b}` holding the payload. -/
def link_mutations (tp a b payload : Bytes) : List Mutation :=
  [⟨relation_edge_path tp a b RelationDirection.In, Op.Put, MutVal.bytes []⟩,
   ⟨relation_edge_path tp b a RelationDirection.Out, Op.Put, MutVal.bytes []⟩,
   ⟨relation_data_path tp a b, Op.Put, MutVal.bytes payload⟩]

/-- Byte view of a mutation value (the metadata codec is opaque; only mutations
carrying plain bytes are ever applied in the statements below). -/
def mutValBytes : MutVal → Bytes
  | MutVal.bytes b => b
  | MutVal.metaEnc _ => []

/-- Effect of a committed mutation batch on the store: Del removes the key's
row, Put replaces or appends it. -/
def apply_mutations (st : Store) (muts : List Mutation) : Store :=
  muts.foldl (fun s m =>
    match m.op with
    | Op.Del => s.filter (fun kv => !(kv.1 == m.key))
    | Op.Put => (s.filter (fun kv => !(kv.1 == m.key))) ++ [(m.key, mutValBytes m.value)]) st

/-- Model of `EntityListHandler::get` (`src/kv-entity/src/entity_handler.rs`
lines 682–702): one batch-get over the payload keys of the listed entities,
then decode each returned value; `collect` over `Result` stops at the first
decode error.  The payload decoder is the external codec, passed as `dec`. -/
def entity_list_get {α : Type} (st : Store) (tp : Bytes) (ids : List Bytes)
    (dec : Bytes → Except Err α) : Except Err (List α) :=
  (batch_get st (ids.map (fun i => component_data_path tp i))).mapM (fun kv => dec kv.2)

/-- Concrete store fixture: the three rows written by `link` of relation type
`T` from entity `e-A` to entity `e-B` with payload `[100]` (the edge triad),
listed in key order. -/
def linkStore : Store :=
  [(relation_data_path (str "T") (str "e-A") (str "e-B"), [100]),
   (relation_edge_path (str "T") (str "e-A") (str "e-B") RelationDirection.In, []),
   (relation_edge_path (str "T") (str "e-B") (str "e-A") RelationDirection.Out, [])]

theorem lexLt_irrefl (a : Bytes) : lexLt a a = false := by
  induction a with
  | nil => rfl
  | cons x xs ih => simp [lexLt, ih]

theorem lexLt_append_same (p x y : Bytes) : lexLt (p ++ x) (p ++ y) = lexLt x y := by
  induction p with
  | nil => rfl
  | cons a p ih => simp [lexLt, ih]

theorem lexLt_cons_of_lt {a b : Nat} (x y : Bytes) (h : a < b) :
    lexLt (a :: x) (b :: y) = true := by
  simp [lexLt, h]

theorem lexLt_trans : ∀ {a b c : Bytes}, lexLt a b = true → lexLt b c = true → lexLt a c = true
  | [], [], _, h, _ => by cases h
  | [], _ :: _, [] , _, h => by cases h
  | [], _ :: _, _ :: _, _, _ => rfl
  | _ :: _, [], _, h, _ => by cases h
  | _ :: _, _ :: _, [], _, h => by cases h
  | a :: as, b :: bs, c :: cs, h1, h2 => by
    simp only [lexLt, Bool.or_eq_true, Bool.and_eq_true, beq_iff_eq, decide_eq_true_eq]
      at h1 h2 ⊢
    rcases h1 with h1 | ⟨rfl, h1⟩
    · rcases h2 with h2 | ⟨rfl, _⟩
      · exact Or.inl (Nat.lt_trans h1 h2)
      · exact Or.inl h1
    · rcases h2 with h2 | ⟨rfl, h2⟩
      · exact Or.inl h2
      · exact Or.inr ⟨rfl, lexLt_trans h1 h2⟩

theorem lexLt_trichotomy : ∀ (a b : Bytes), lexLt a b = true ∨ a = b ∨ lexLt b a = true
  | [], [] => Or.inr (Or.inl rfl)
  | [], _ :: _ => Or.inl rfl
  | _ :: _, [] => Or.inr (Or.inr rfl)
  | a :: as, b :: bs => by
    rcases Nat.lt_trichotomy a b with h | h | h
    · exact Or.inl (lexLt_cons_of_lt _ _ h)
    · subst h
      rcases lexLt_trichotomy as bs with h | h | h
      · exact Or.inl (by simp [lexLt, h])
      · exact Or.inr (Or.inl (by rw [h]))
      · exact Or.inr (Or.inr (by simp [lexLt, h]))
    · exact Or.inr (Or.inr (lexLt_cons_of_lt _ _ h))

theorem lexLt_asymm {a b : Bytes} (h : lexLt a b = true) : lexLt b a = false := by
  by_contra hc
  have hba : lexLt b a = true := by
    cases hh : lexLt b a with
    | false => exact absurd hh hc
    | true => rfl
  have := lexLt_trans h hba
  rw [lexLt_irrefl] at this
  cases this

/-- Every proper extension of a byte string is lexicographically above it. -/
theorem lexLt_self_append (k s : Bytes) (hs : s ≠ []) : lexLt k (k ++ s) = true := by
  have : lexLt ([] : Bytes) s = true := by
    cases s with
    | nil => exact absurd rfl hs
    | cons c cs => rfl
  calc lexLt k (k ++ s) = lexLt (k ++ []) (k ++ s) := by rw [List.append_nil]
    _ = lexLt [] s := lexLt_append_same k [] s
    _ = true := this

theorem bumpRev_spec : ∀ (rl r' : Bytes), bumpRev rl = some r' →
    ∀ (s t : Bytes), lexLt (rl.reverse ++ s) (r'.reverse ++ t) = true := by
  intro rl
  induction rl with
  | nil => intro r' h; cases h
  | cons b rest ih =>
    intro r' h s t
    by_cases hb : b < 255
    · simp only [bumpRev, if_pos hb, Option.some.injEq] at h
      subst h
      simp only [List.reverse_cons, List.append_assoc]
      rw [lexLt_append_same]
      exact lexLt_cons_of_lt _ _ (Nat.lt_succ_self b)
    · simp only [bumpRev, if_neg hb] at h
      cases hrest : bumpRev rest with
      | none => rw [hrest] at h; cases h
      | some r'' =>
        rw [hrest] at h
        simp only [Option.map_some', Option.some.injEq] at h
        subst h
        simp only [List.reverse_cons, List.append_assoc]
        exact ih r'' hrest (b :: s) (b :: t)

theorem bumpRev_none : ∀ (rl : Bytes), bumpRev rl = none → rl.any (· < 255) = false := by
  intro rl
  induction rl with
  | nil => intro _; rfl
  | cons b rest ih =>
    intro h
    by_cases hb : b < 255
    · unfold bumpRev at h
      rw [if_pos hb] at h
      cases h
    · simp only [bumpRev, if_neg hb] at h
      cases hrest : bumpRev rest with
      | none =>
        simp only [List.any_cons, Bool.or_eq_false_iff]
        exact ⟨by simpa using hb, ih hrest⟩
      | some r'' => rw [hrest] at h; simp at h

theorem bumpRev_isSome_of_any : ∀ (rl : Bytes), rl.any (· < 255) = true →
    ∃ r', bumpRev rl = some r' := by
  intro rl h
  cases hh : bumpRev rl with
  | none => rw [bumpRev_none rl hh] at h; cases h
  | some r' => exact ⟨r', rfl⟩

/-- Core property of `next_key`: whenever the key has a byte below `0xFF`, the
returned key is above the key itself and above every extension of it. -/
theorem next_key_gt_extensions (k : Bytes) (h : k.any (· < 255) = true) (s : Bytes) :
    lexLt (k ++ s) (next_key k) = true := by
  have hrev : k.reverse.any (· < 255) = true := by
    rw [List.any_reverse]; exact h
  obtain ⟨r', hr⟩ := bumpRev_isSome_of_any k.reverse hrev
  have := bumpRev_spec k.reverse r' hr s []
  rw [List.reverse_reverse, List.append_nil] at this
  simpa [next_key, hr] using this

theorem bumpRev_some_any : ∀ (rl r' : Bytes), bumpRev rl = some r' → rl.any (· < 255) = true := by
  intro rl
  induction rl with
  | nil => intro r' h; cases h
  | cons b rest ih =>
    intro r' h
    by_cases hb : b < 255
    · simp [List.any_cons, hb]
    · simp only [bumpRev, if_neg hb] at h
      cases hrest : bumpRev rest with
      | none => rw [hrest] at h; cases h
      | some rr =>
        simp [List.any_cons, ih rr hrest]

theorem next_key_id_of_none (k : Bytes) (h : k.any (· < 255) = false) : next_key k = k := by
  unfold next_key
  cases hh : bumpRev k.reverse with
  | none => rfl
  | some r' =>
    have := bumpRev_some_any k.reverse r' hh
    rw [List.any_reverse, h] at this
    cases this

/-- C8: the claim that `next_key` returns the immediate lexicographic successor
is refuted at `k = "A"`: `next_key "A" = "B"`, yet the key `[0x41, 0x00]`
(`"A"` followed by a zero byte) lies strictly between the two, so some key does
lie strictly between `k` and `next_key k`. -/
theorem next_key_not_immediate :
    next_key (str "A") = str "B" ∧
    lexLt (str "A") [65, 0] = true ∧ lexLt [65, 0] (next_key (str "A")) = true := by decide

/-- C8 (amended): when `k` has a byte below `0xFF`, `next_key k` (the key with
its last such byte incremented and the bytes after it unchanged) is strictly
above `k` and above every key extending `k`; when every byte of `k` is `0xFF`
(including the empty key) `next_key` returns `k` unchanged.  It is, however,
not the immediate successor (see `next_key_not_immediate`). -/
theorem next_key_amended :
    (∀ k : Bytes, k.any (· < 255) = true →
        lexLt k (next_key k) = true ∧ ∀ s : Bytes, lexLt (k ++ s) (next_key k) = true)
    ∧ (∀ k : Bytes, k.any (· < 255) = false → next_key k = k) := by
  constructor
  · intro k h
    refine ⟨?_, fun s => next_key_gt_extensions k h s⟩
    have h0 := next_key_gt_extensions k h []
    simpa using h0
  · exact fun k h => next_key_id_of_none k h

/-- Witness for `next_key_amended` at the concrete keys `"ab"` and `[255, 255]`. -/
theorem next_key_amended_witness :
    lexLt (str "ab") (next_key (str "ab")) = true ∧ next_key [255, 255] = [255, 255] :=
  ⟨(next_key_amended.1 (str "ab") (by decide)).1, next_key_amended.2 [255, 255] (by decide)⟩

/-- C6: on a store with no `component/single/T` rows the very first scanned page
is empty, and `DB::iterator` takes `kvs.last().ok_or(Error::NotFound)?` before
any emptiness check, so the stream yields `Err(NotFound)` instead of ending
cleanly — both on the empty store and on a store holding only foreign keys. -/
theorem iterator_empty_page_error :
    iterator [] (str "T") = ([], some Err.NotFound) ∧
    iterator [(str "x", [])] (str "T") = ([], some Err.NotFound) := by decide

/-- C2: `detach` with metadata `{UserInfo ↦ {name ↦ "Alice"}}` for entity `e-1`
commits a batch that deletes the key `"Alice"` — the recorded encoded value
used verbatim as a key — while the actual index row key
`component/index/UserInfo/name/Alice/e-1` the claim requires is absent from the
batch, so the index row survives the detach. -/
theorem detach_raw_value_delete_bug :
    (detach (str "UserInfo") [str "name"] (str "e-1")
        (some ⟨[(str "UserInfo", ⟨[(str "name", str "Alice")]⟩)]⟩)).committed = true ∧
    str "Alice" ∈ (detach (str "UserInfo") [str "name"] (str "e-1")
        (some ⟨[(str "UserInfo", ⟨[(str "name", str "Alice")]⟩)]⟩)).mutations.map Mutation.key ∧
    component_index_path (str "UserInfo") (str "name") (str "Alice") (str "e-1")
      ∉ (detach (str "UserInfo") [str "name"] (str "e-1")
        (some ⟨[(str "UserInfo", ⟨[(str "name", str "Alice")]⟩)]⟩)).mutations.map Mutation.key := by
  decide

/-- C7: the claim that every mid-transaction failure is preceded by an explicit
rollback is refuted by `detach` finding metadata that lacks an archetype entry
for the type: it surfaces `NotFound` through the `?` operator with the rollback
flag still false. -/
theorem detach_no_rollback_on_missing_archetype :
    (detach (str "T") [str "f"] (str "e-1") (some ⟨[]⟩)).error = some Err.NotFound ∧
    (detach (str "T") [str "f"] (str "e-1") (some ⟨[]⟩)).rolledBack = false := by decide

/-- C7 (amended): whenever `detach` surfaces an error it has committed nothing
and issued no writes (so the store is unchanged), and the metadata-missing
paths do roll back explicitly — `detach` with absent metadata, and the
metadata gate of `delete_in_txn`; only the archetype-missing path of `detach`
surfaces its error without a rollback (see
`detach_no_rollback_on_missing_archetype`). -/
theorem error_rollback_amended :
    (∀ (tp : Bytes) (field_names : List Bytes) (e : Bytes) (meta? : Option EntityMetadata),
        (detach tp field_names e meta?).error.isSome = true →
        (detach tp field_names e meta?).committed = false ∧
        (detach tp field_names e meta?).mutations = [])
    ∧ (∀ (tp : Bytes) (field_names : List Bytes) (e : Bytes),
        field_names ≠ [] → (detach tp field_names e none).rolledBack = true)
    ∧ (∀ meta? : Option EntityMetadata,
        (delete_metadata_check meta?).2.isSome = true → (delete_metadata_check meta?).1 = true) := by
  refine ⟨?_, ?_, ?_⟩
  · intro tp fn e meta?
    unfold detach
    by_cases hfn : fn.isEmpty
    · simp [hfn]
    · cases meta? with
      | none => simp [hfn]
      | some meta =>
        cases h : alookup tp meta.component_archetypes with
        | none => simp [hfn, h]
        | some arche => simp [hfn, h]
  · intro tp fn e hfn
    unfold detach
    have hne : fn.isEmpty = false := by
      cases fn with
      | nil => exact absurd rfl hfn
      | cons a l => rfl
    simp [hne]
  · intro meta? h
    cases meta? with
    | none => rfl
    | some m => simp [delete_metadata_check] at h

/-- Witness for `error_rollback_amended`: `detach` of an indexed type with
metadata absent commits nothing and rolls back. -/
theorem error_rollback_amended_witness :
    (detach (str "T") [str "f"] (str "e-1") none).committed = false ∧
    (detach (str "T") [str "f"] (str "e-1") none).rolledBack = true :=
  ⟨(error_rollback_amended.1 (str "T") [str "f"] (str "e-1") none (by decide)).1,
   error_rollback_amended.2.1 (str "T") [str "f"] (str "e-1") (by decide)⟩

/-- C4: on the triad left by `link(A, B)`, `delete_edges` on `A` enqueues Dels
of the scanned marker `relation/edge/e-A/T/in/e-B`, of the *non-existent* key
`relation/edge/e-B/T/in/e-A` (the source reuses the scanned direction instead
of flipping it for the other side), and of the data row — so the real opposite
marker `relation/edge/e-B/T/out/e-A` is not deleted and survives the commit. -/
theorem delete_edges_triad_bug :
    delete_edges linkStore (str "T") (str "e-A") = Except.ok
      [⟨relation_edge_path (str "T") (str "e-A") (str "e-B") RelationDirection.In,
          Op.Del, MutVal.bytes []⟩,
       ⟨relation_edge_path (str "T") (str "e-B") (str "e-A") RelationDirection.In,
          Op.Del, MutVal.bytes []⟩,
       ⟨relation_data_path (str "T") (str "e-A") (str "e-B"), Op.Del, MutVal.bytes []⟩] ∧
    relation_edge_path (str "T") (str "e-B") (str "e-A") RelationDirection.Out
      ∈ (apply_mutations linkStore
          ((delete_edges linkStore (str "T") (str "e-A")).toOption.getD [])).map
            (fun kv => kv.1) :=
  ⟨rfl, by decide⟩

/-- C5: after `link(A, B, p)`, the stream `edges(In)` on `B` scans the range
`relation/edge/e-B/T/in/…`, which contains nothing — `B`'s marker row carries
the `out` tag — so it yields no element at all, refuting the claim that it
yields `(A, Out, p)`; that tuple is yielded by `edges(Out)` on `B` instead. -/
theorem edges_in_direction_empty :
    edges linkStore (str "T") (str "e-B") RelationDirection.In = ([], none) ∧
    edges linkStore (str "T") (str "e-B") RelationDirection.Out
      = ([(str "e-A", RelationDirection.Out, [100])], none) := by decide

/-- Closed form of the per-field attach loop: folding `attachStep` over the
archetype entries appends, per entry in order, the Del for a non-empty previous
value followed by the Put for a fresh value, and records the fresh value (or
keeps the previous one) in the updated entry list. -/
theorem attachStep_foldl (tp e : Bytes) (fresh : List (Bytes × Bytes)) :
    ∀ (l : List (Bytes × Bytes)) (m : List Mutation) (a : List (Bytes × Bytes)),
    l.foldl (attachStep tp e fresh) (m, a) =
      (m ++ l.flatMap (fun fk =>
          (if fk.2 ≠ [] then [⟨component_index_path tp fk.1 fk.2 e, Op.Del, MutVal.bytes []⟩]
            else [])
          ++ ((freshLookup fresh fk.1).elim []
              (fun nv => [⟨component_index_path tp fk.1 nv e, Op.Put, MutVal.bytes e⟩]))),
       a ++ l.map (fun fk => (fk.1, (freshLookup fresh fk.1).getD fk.2))) := by
  intro l
  induction l with
  | nil => intro m a; simp
  | cons fk rest ih =>
    intro m a
    obtain ⟨f1, f2⟩ := fk
    simp only [List.foldl_cons, List.flatMap_cons, List.map_cons]
    rcases hf : freshLookup fresh f1 with _ | nv <;> by_cases h2 : f2 = [] <;>
      simp [attachStep, hf, h2, ih, List.append_assoc]

/-- C1 (amended): the attach-in-txn routine extends the pending batch with
exactly, for each entry `(f, prev)` of the archetype record for `T` (created as
`{f ↦ ""}` over `T`'s indexed field names when absent) in order: a Del of
`component/index/T/f/prev/e` when `prev` is non-empty, then a Put of
`component/index/T/f/nv/e` whose stored value is the entity-id text when the
fresh encodings of the value contain `nv` for `f`; followed by one Put of
`component/single/T/e` holding the serialized payload.  The metadata's entry
for `T` is rewritten with each field updated to its fresh value when present —
in particular a fresh field *absent from the archetype entry* produces no Put,
which is what refutes the claim as stated (see `attach_in_txn_put_skipped`). -/
theorem attach_in_txn_batch (tp : Bytes) (field_names : List Bytes) (e : Bytes)
    (muts : List Mutation) (meta : EntityMetadata) (fresh : List (Bytes × Bytes))
    (payload : Bytes) :
    attach_component_in_txn tp field_names e muts meta fresh payload =
      (muts ++
        ((alookup tp meta.component_archetypes).getD
            ⟨field_names.map (fun f => (f, []))⟩).index_keys.flatMap
          (fun fk =>
            (if fk.2 ≠ [] then [⟨component_index_path tp fk.1 fk.2 e, Op.Del, MutVal.bytes []⟩]
              else [])
            ++ ((freshLookup fresh fk.1).elim []
                (fun nv => [⟨component_index_path tp fk.1 nv e, Op.Put, MutVal.bytes e⟩])))
        ++ [⟨component_data_path tp e, Op.Put, MutVal.bytes payload⟩],
       ⟨aset tp
          ⟨((alookup tp meta.component_archetypes).getD
              ⟨field_names.map (fun f => (f, []))⟩).index_keys.map
            (fun fk => (fk.1, (freshLookup fresh fk.1).getD fk.2))⟩
          meta.component_archetypes⟩) := by
  simp [attach_component_in_txn, attachStep_foldl, List.append_assoc]

/-- C1: the claim's Put clause is refuted when the metadata already holds an
archetype entry for `T` whose field map is empty: with fresh encoding
`("age", "025")` the routine enqueues only the payload Put — no index Put for
`age` — because the loop ranges over the archetype's entries, not over the
fresh encodings. -/
theorem attach_in_txn_put_skipped :
    (attach_component_in_txn (str "T") [str "age"] (str "e-1") []
        ⟨[(str "T", ⟨[]⟩)]⟩ [(str "age", str "025")] [1]).1
      = [⟨component_data_path (str "T") (str "e-1"), Op.Put, MutVal.bytes [1]⟩] ∧
    component_index_path (str "T") (str "age") (str "025") (str "e-1")
      ∉ ((attach_component_in_txn (str "T") [str "age"] (str "e-1") []
        ⟨[(str "T", ⟨[]⟩)]⟩ [(str "age", str "025")] [1]).1).map Mutation.key := by decide

/-- C10: `EntityListHandler::get` returns (in batch-get order) exactly the
decoded payloads of those listed entities whose `component/single/T` row
exists: with a total decoder the result is the `filterMap` of the lookups —
entities without the row are silently omitted, no `NotFound` and no
placeholder is produced, and the result is never longer than the id list
(strictly shorter when some row is absent, hence not positionally aligned). -/
theorem entity_list_get_existing_only {α : Type} (f : Bytes → α) (st : Store) (tp : Bytes)
    (ids : List Bytes) :
    entity_list_get st tp ids (fun b => Except.ok (f b))
      = Except.ok (ids.filterMap (fun i => (slookup st (component_data_path tp i)).map f))
    ∧ (ids.filterMap (fun i => (slookup st (component_data_path tp i)).map f)).length
        ≤ ids.length := by
  constructor
  · induction ids with
    | nil => rfl
    | cons i rest ih =>
      simp only [entity_list_get, batch_get, List.map_cons, List.filterMap_cons] at ih ⊢
      cases h : slookup st (component_data_path tp i) with
      | none => simpa [h] using ih
      | some v =>
        simp only [h, Option.map_some']
        simp only [List.mapM_cons, ih]
        rfl
  · exact List.length_filterMap_le _ _

/-- Equal-width zero-padded decimal strings compare lexicographically exactly as
the numbers they render. -/
theorem padDec_lt_iff : ∀ (w m n : Nat), m < 10 ^ w → n < 10 ^ w →
    (lexLt (padDec w m) (padDec w n) = true ↔ m < n) := by
  intro w
  induction w with
  | zero =>
    intro m n hm hn
    have hm0 : m = 0 := by omega
    have hn0 : n = 0 := by omega
    subst hm0; subst hn0
    simp [padDec, lexLt]
  | succ w ih =>
    intro m n hm hn
    have hP : 0 < 10 ^ w := pow_pos (by norm_num) w
    have hmod_m : m % 10 ^ w < 10 ^ w := Nat.mod_lt _ hP
    have hmod_n : n % 10 ^ w < 10 ^ w := Nat.mod_lt _ hP
    have hdm : m / 10 ^ w * 10 ^ w + m % 10 ^ w = m := Nat.div_add_mod' m (10 ^ w)
    have hdn : n / 10 ^ w * 10 ^ w + n % 10 ^ w = n := Nat.div_add_mod' n (10 ^ w)
    simp only [padDec, lexLt, Bool.or_eq_true, Bool.and_eq_true, beq_iff_eq,
      decide_eq_true_eq]
    rcases Nat.lt_trichotomy (m / 10 ^ w) (n / 10 ^ w) with h | h | h
    · have hmn : m < n := Nat.lt_of_div_lt_div h
      constructor
      · intro _; exact hmn
      · intro _; exact Or.inl (Nat.add_lt_add_left h 48)
    · rw [h]
      simp only [lt_irrefl, false_or, true_and]
      rw [ih (m % 10 ^ w) (n % 10 ^ w) hmod_m hmod_n]
      have hd2 : n / 10 ^ w * 10 ^ w + m % 10 ^ w = m := by rw [← h]; exact hdm
      constructor
      · intro hr
        calc m = n / 10 ^ w * 10 ^ w + m % 10 ^ w := hd2.symm
          _ < n / 10 ^ w * 10 ^ w + n % 10 ^ w := Nat.add_lt_add_left hr _
          _ = n := hdn
      · intro hr
        by_contra hc
        have hge : n % 10 ^ w ≤ m % 10 ^ w := Nat.le_of_not_lt hc
        have hle : n ≤ m :=
          calc n = n / 10 ^ w * 10 ^ w + n % 10 ^ w := hdn.symm
            _ ≤ n / 10 ^ w * 10 ^ w + m % 10 ^ w := Nat.add_le_add_left hge _
            _ = m := hd2
        exact absurd hr (Nat.not_lt.mpr hle)
    · have hnm : n < m := Nat.lt_of_div_lt_div h
      constructor
      · rintro (hlt | ⟨heq, _⟩)
        · exact absurd (Nat.lt_of_add_lt_add_left hlt) (Nat.lt_asymm h)
        · exact absurd (Nat.add_left_cancel heq) (Nat.ne_of_gt h)
      · intro hlt; exact absurd hlt (Nat.lt_asymm hnm)

theorem encode_u8_lt_iff (a b : Nat) (ha : a < 256) (hb : b < 256) :
    lexLt (encode_u8 a) (encode_u8 b) = true ↔ a < b :=
  padDec_lt_iff 3 a b (lt_trans ha (by norm_num)) (lt_trans hb (by norm_num))

theorem encode_u16_lt_iff (a b : Nat) (ha : a < 65536) (hb : b < 65536) :
    lexLt (encode_u16 a) (encode_u16 b) = true ↔ a < b :=
  padDec_lt_iff 5 a b (lt_trans ha (by norm_num)) (lt_trans hb (by norm_num))

theorem encode_u32_lt_iff (a b : Nat) (ha : a < 2 ^ 32) (hb : b < 2 ^ 32) :
    lexLt (encode_u32 a) (encode_u32 b) = true ↔ a < b :=
  padDec_lt_iff 10 a b (lt_trans ha (by norm_num)) (lt_trans hb (by norm_num))

theorem encode_u64_lt_iff (a b : Nat) (ha : a < 2 ^ 64) (hb : b < 2 ^ 64) :
    lexLt (encode_u64 a) (encode_u64 b) = true ↔ a < b :=
  padDec_lt_iff 20 a b (lt_trans ha (by norm_num)) (lt_trans hb (by norm_num))

theorem encode_usize_lt_iff (a b : Nat) (ha : a < 2 ^ 64) (hb : b < 2 ^ 64) :
    lexLt (encode_usize a) (encode_usize b) = true ↔ a < b :=
  padDec_lt_iff 20 a b (lt_trans ha (by norm_num)) (lt_trans hb (by norm_num))

theorem encode_u128_lt_iff (a b : Nat) (ha : a < 2 ^ 128) (hb : b < 2 ^ 128) :
    lexLt (encode_u128 a) (encode_u128 b) = true ↔ a < b :=
  padDec_lt_iff 39 a b (lt_trans ha (by norm_num)) (lt_trans hb (by norm_num))

theorem encode_i8_lt_iff (a b : Int) (ha1 : -128 ≤ a) (ha2 : a < 128)
    (hb1 : -128 ≤ b) (hb2 : b < 128) :
    lexLt (encode_i8 a) (encode_i8 b) = true ↔ a < b := by
  unfold encode_i8
  have hw : (10 : Nat) ^ 3 = 1000 := by norm_num
  rw [padDec_lt_iff 3 _ _ (by omega) (by omega)]
  omega

theorem encode_i16_lt_iff (a b : Int) (ha1 : -32768 ≤ a) (ha2 : a < 32768)
    (hb1 : -32768 ≤ b) (hb2 : b < 32768) :
    lexLt (encode_i16 a) (encode_i16 b) = true ↔ a < b := by
  unfold encode_i16
  have hw : (10 : Nat) ^ 5 = 100000 := by norm_num
  rw [padDec_lt_iff 5 _ _ (by omega) (by omega)]
  omega

theorem encode_i32_lt_iff (a b : Int) (ha1 : -2147483648 ≤ a) (ha2 : a < 2147483648)
    (hb1 : -2147483648 ≤ b) (hb2 : b < 2147483648) :
    lexLt (encode_i32 a) (encode_i32 b) = true ↔ a < b := by
  unfold encode_i32
  have hw : (10 : Nat) ^ 10 = 10000000000 := by norm_num
  rw [padDec_lt_iff 10 _ _ (by omega) (by omega)]
  omega

theorem encode_i64_lt_iff (a b : Int)
    (ha1 : -9223372036854775808 ≤ a) (ha2 : a < 9223372036854775808)
    (hb1 : -9223372036854775808 ≤ b) (hb2 : b < 9223372036854775808) :
    lexLt (encode_i64 a) (encode_i64 b) = true ↔ a < b := by
  unfold encode_i64
  have hw : (10 : Nat) ^ 20 = 100000000000000000000 := by norm_num
  rw [padDec_lt_iff 20 _ _ (by omega) (by omega)]
  omega

theorem encode_isize_lt_iff (a b : Int)
    (ha1 : -9223372036854775808 ≤ a) (ha2 : a < 9223372036854775808)
    (hb1 : -9223372036854775808 ≤ b) (hb2 : b < 9223372036854775808) :
    lexLt (encode_isize a) (encode_isize b) = true ↔ a < b := by
  unfold encode_isize
  have hw : (10 : Nat) ^ 20 = 100000000000000000000 := by norm_num
  rw [padDec_lt_iff 20 _ _ (by omega) (by omega)]
  omega

theorem encode_i128_lt_iff (a b : Int)
    (ha1 : -170141183460469231731687303715884105728 ≤ a)
    (ha2 : a < 170141183460469231731687303715884105728)
    (hb1 : -170141183460469231731687303715884105728 ≤ b)
    (hb2 : b < 170141183460469231731687303715884105728) :
    lexLt (encode_i128 a) (encode_i128 b) = true ↔ a < b := by
  unfold encode_i128
  have h2p : (2 : Int) ^ 128 = 340282366920938463463374607431768211456 := by norm_num
  have ea : (a + 170141183460469231731687303715884105728).emod (2 ^ 128)
      = a + 170141183460469231731687303715884105728 :=
    Int.emod_eq_of_lt (by omega) (by omega)
  have eb : (b + 170141183460469231731687303715884105728).emod (2 ^ 128)
      = b + 170141183460469231731687303715884105728 :=
    Int.emod_eq_of_lt (by omega) (by omega)
  rw [ea, eb]
  have hw : (10 : Nat) ^ 39 = 1000000000000000000000000000000000000000 := by norm_num
  rw [padDec_lt_iff 39 _ _ (by omega) (by omega)]
  omega

theorem encode_f32_mono (a b : Nat) (ha : a < 2 ^ 32) (hb : b < 2 ^ 32)
    (h : f32lt a b = true) : lexLt (encode_f32 a) (encode_f32 b) = true := by
  have e31 : (2 : Nat) ^ 31 = 2147483648 := by norm_num
  have e32 : (2 : Nat) ^ 32 = 4294967296 := by norm_num
  have hk : f32key a < f32key b := by
    simp only [f32lt, Bool.and_eq_true, decide_eq_true_eq] at h
    exact h.2
  unfold encode_f32
  have hsa : sortable32 a < 2 ^ 32 := by
    unfold sortable32; simp only [e31, e32] at *; split_ifs <;> omega
  have hsb : sortable32 b < 2 ^ 32 := by
    unfold sortable32; simp only [e31, e32] at *; split_ifs <;> omega
  have hs : sortable32 a < sortable32 b := by
    unfold f32key at hk
    unfold sortable32
    simp only [e31, e32] at *
    split_ifs at hk ⊢ <;> omega
  exact (padDec_lt_iff 10 _ _ (lt_trans hsa (by norm_num)) (lt_trans hsb (by norm_num))).mpr hs

theorem encode_f64_mono (a b : Nat) (ha : a < 2 ^ 64) (hb : b < 2 ^ 64)
    (h : f64lt a b = true) : lexLt (encode_f64 a) (encode_f64 b) = true := by
  have e63 : (2 : Nat) ^ 63 = 9223372036854775808 := by norm_num
  have e64 : (2 : Nat) ^ 64 = 18446744073709551616 := by norm_num
  have hk : f64key a < f64key b := by
    simp only [f64lt, Bool.and_eq_true, decide_eq_true_eq] at h
    exact h.2
  unfold encode_f64
  have hsa : sortable64 a < 2 ^ 64 := by
    unfold sortable64; simp only [e63, e64] at *; split_ifs <;> omega
  have hsb : sortable64 b < 2 ^ 64 := by
    unfold sortable64; simp only [e63, e64] at *; split_ifs <;> omega
  have hs : sortable64 a < sortable64 b := by
    unfold f64key at hk
    unfold sortable64
    simp only [e63, e64] at *
    split_ifs at hk ⊢ <;> omega
  exact (padDec_lt_iff 20 _ _ (lt_trans hsa (by norm_num)) (lt_trans hsb (by norm_num))).mpr hs

/-- C9: the order-preservation claim fails for the float encoders.  With
`a = -0.0` (bit pattern `0x80000000 = 2147483648`) and `b = 0.0` (pattern 0),
IEEE-754 makes `a < b` false in both directions (the two zeros compare equal),
yet `encode(a) = "2147483647"` sorts strictly below `encode(b) = "2147483648"`,
so `a < b ↔ encode(a) < encode(b)` does not hold. -/
theorem float_encoding_counterexample :
    f32lt 2147483648 0 = false ∧ f32lt 0 2147483648 = false ∧
    lexLt (encode_f32 2147483648) (encode_f32 0) = true := by decide

/-- C9 (amended): for the twelve integer types the generated encoder is strictly
order-preserving — `a < b` iff the fixed-width encodings compare
lexicographically — over each type's value range (signed types biased so the
minimum maps to 0).  For `f32`/`f64` (taken as IEEE-754 bit patterns) the
encoder is monotone: `a < b` under IEEE comparison implies
`encode a < encode b`; the converse fails at `-0.0` vs `0.0` and at NaNs (see
`float_encoding_counterexample`). -/
theorem numeric_encoding_amended :
    (∀ a b : Nat, a < 256 → b < 256 →
        (lexLt (encode_u8 a) (encode_u8 b) = true ↔ a < b))
    ∧ (∀ a b : Nat, a < 65536 → b < 65536 →
        (lexLt (encode_u16 a) (encode_u16 b) = true ↔ a < b))
    ∧ (∀ a b : Nat, a < 2 ^ 32 → b < 2 ^ 32 →
        (lexLt (encode_u32 a) (encode_u32 b) = true ↔ a < b))
    ∧ (∀ a b : Nat, a < 2 ^ 64 → b < 2 ^ 64 →
        (lexLt (encode_u64 a) (encode_u64 b) = true ↔ a < b))
    ∧ (∀ a b : Nat, a < 2 ^ 64 → b < 2 ^ 64 →
        (lexLt (encode_usize a) (encode_usize b) = true ↔ a < b))
    ∧ (∀ a b : Nat, a < 2 ^ 128 → b < 2 ^ 128 →
        (lexLt (encode_u128 a) (encode_u128 b) = true ↔ a < b))
    ∧ (∀ a b : Int, -128 ≤ a → a < 128 → -128 ≤ b → b < 128 →
        (lexLt (encode_i8 a) (encode_i8 b) = true ↔ a < b))
    ∧ (∀ a b : Int, -32768 ≤ a → a < 32768 → -32768 ≤ b → b < 32768 →
        (lexLt (encode_i16 a) (encode_i16 b) = true ↔ a < b))
    ∧ (∀ a b : Int, -2147483648 ≤ a → a < 2147483648 → -2147483648 ≤ b → b < 2147483648 →
        (lexLt (encode_i32 a) (encode_i32 b) = true ↔ a < b))
    ∧ (∀ a b : Int, -9223372036854775808 ≤ a → a < 9223372036854775808 →
        -9223372036854775808 ≤ b → b < 9223372036854775808 →
        (lexLt (encode_i64 a) (encode_i64 b) = true ↔ a < b))
    ∧ (∀ a b : Int, -9223372036854775808 ≤ a → a < 9223372036854775808 →
        -9223372036854775808 ≤ b → b < 9223372036854775808 →
        (lexLt (encode_isize a) (encode_isize b) = true ↔ a < b))
    ∧ (∀ a b : Int, -170141183460469231731687303715884105728 ≤ a →
        a < 170141183460469231731687303715884105728 →
        -170141183460469231731687303715884105728 ≤ b →
        b < 170141183460469231731687303715884105728 →
        (lexLt (encode_i128 a) (encode_i128 b) = true ↔ a < b))
    ∧ (∀ a b : Nat, a < 2 ^ 32 → b < 2 ^ 32 → f32lt a b = true →
        lexLt (encode_f32 a) (encode_f32 b) = true)
    ∧ (∀ a b : Nat, a < 2 ^ 64 → b < 2 ^ 64 → f64lt a b = true →
        lexLt (encode_f64 a) (encode_f64 b) = true) :=
  ⟨encode_u8_lt_iff, encode_u16_lt_iff, encode_u32_lt_iff, encode_u64_lt_iff,
   encode_usize_lt_iff, encode_u128_lt_iff, encode_i8_lt_iff, encode_i16_lt_iff,
   encode_i32_lt_iff, encode_i64_lt_iff, encode_isize_lt_iff, encode_i128_lt_iff,
   encode_f32_mono, encode_f64_mono⟩

/-- Witness for `numeric_encoding_amended`: the `u8` encoder at 3 and 7 and the
`i32` encoder at -5 and 4, with the encodings evaluated. -/
theorem numeric_encoding_amended_witness :
    lexLt (encode_u8 3) (encode_u8 7) = true ∧ lexLt (encode_i32 (-5)) (encode_i32 4) = true :=
  ⟨(numeric_encoding_amended.1 3 7 (by norm_num) (by norm_num)).mpr (by norm_num),
   (numeric_encoding_amended.2.2.2.2.2.2.2.2.1 (-5) 4 (by norm_num) (by norm_num)
      (by norm_num) (by norm_num)).mpr (by norm_num)⟩

theorem lexLe_append_same (p x y : Bytes) : lexLe (p ++ x) (p ++ y) = lexLe x y := by
  unfold lexLe
  rw [lexLt_append_same]

theorem lexLe_of_le_of_lt {a b c : Bytes} (h1 : lexLe a b = true) (h2 : lexLt b c = true) :
    lexLe a c = true := by
  unfold lexLe at h1 ⊢
  simp only [Bool.not_eq_true'] at h1 ⊢
  cases hca : lexLt c a with
  | false => rfl
  | true =>
    have hba := lexLt_trans h2 hca
    rw [h1] at hba
    cases hba

theorem next_key_snoc (w : Bytes) (b : Nat) (hb : b < 255) :
    next_key (w ++ [b]) = w ++ [b + 1] := by
  unfold next_key
  rw [List.reverse_append]
  simp [bumpRev, hb]

/-- The keys strictly between `w ++ [b]` and `w ++ [b + 1]` are exactly the
proper extensions of `w ++ [b]`. -/
theorem between_snoc : ∀ (w : Bytes) (b : Nat) (x : Bytes),
    lexLt (w ++ [b]) x = true → lexLt x (w ++ [b + 1]) = true →
    ∃ s : Bytes, s ≠ [] ∧ x = (w ++ [b]) ++ s := by
  intro w
  induction w with
  | nil =>
    intro b x h1 h2
    cases x with
    | nil => simp [lexLt] at h1
    | cons c xs =>
      simp only [List.nil_append, lexLt, Bool.or_eq_true, Bool.and_eq_true, beq_iff_eq,
        decide_eq_true_eq] at h1 h2
      rcases h2 with h2 | ⟨rfl, h2'⟩
      · rcases h1 with h1 | ⟨rfl, h1'⟩
        · omega
        · have hxs : xs ≠ [] := by
            cases xs with
            | nil => simp [lexLt] at h1'
            | cons y ys => exact List.cons_ne_nil y ys
          exact ⟨xs, hxs, by simp⟩
      · cases xs with
        | nil => simp [lexLt] at h2'
        | cons y ys => simp [lexLt] at h2'
  | cons a w ih =>
    intro b x h1 h2
    cases x with
    | nil => simp [lexLt] at h1
    | cons c xs =>
      simp only [List.cons_append, lexLt, Bool.or_eq_true, Bool.and_eq_true, beq_iff_eq,
        decide_eq_true_eq] at h1 h2
      rcases h1 with h1 | ⟨he1, h1'⟩
      · rcases h2 with h2 | ⟨he2, _⟩
        · omega
        · omega
      · rcases h2 with h2 | ⟨he2, h2'⟩
        · omega
        · obtain ⟨s, hs, hx⟩ := ih b xs h1' h2'
          subst he1
          exact ⟨s, hs, by simp [hx]⟩

/-- In a pairwise-sorted list, every element is the last element or relates to
it. -/
theorem pairwise_getLast {α : Type} (r : α → α → Prop) (l : List α) (h : l ≠ [])
    (hp : l.Pairwise r) : ∀ a ∈ l, a = l.getLast h ∨ r a (l.getLast h) := by
  intro a ha
  rcases List.eq_nil_or_concat l with rfl | ⟨L, x, hc⟩
  · exact absurd rfl h
  · rw [List.concat_eq_append] at hc
    subst hc
    have hlast : (L ++ [x]).getLast h = x := by simp [List.getLast_concat]
    rw [List.pairwise_append] at hp
    rcases List.mem_append.mp ha with hmem | hmem
    · right; rw [hlast]; exact hp.2.2 a hmem x (by simp)
    · left; rw [hlast]; simpa using hmem

/-- Advancing a scan past an in-range key with `next_key` keeps exactly the
in-range rows strictly beyond it: with store keys non-empty, free of `0xFF`
bytes and (below the range's end) never proper byte-extensions of one another,
`next_key` skips nothing. -/
theorem inRange_advance (st : Store) (startKey endKey lastK : Bytes)
    (hsort : st.Pairwise (fun u v => lexLt u.1 v.1 = true))
    (hkeys : ∀ kv ∈ st, kv.1 ≠ [] ∧ ∀ c ∈ kv.1, c < 255)
    (hnoext : ∀ kv1 ∈ st, ∀ kv2 ∈ st, lexLt kv1.1 endKey = true → lexLt kv2.1 endKey = true →
        ¬(kv2.1.take kv1.1.length = kv1.1 ∧ kv1.1.length < kv2.1.length))
    (hmem : lastK ∈ (inRange st startKey endKey).map (·.1)) :
    inRange st (next_key lastK) endKey
      = (inRange st startKey endKey).filter (fun kv => lexLt lastK kv.1) := by
  obtain ⟨kvL, hkvL_in, hkvL_eq⟩ := List.mem_map.mp hmem
  have hkvL_st : kvL ∈ st := List.mem_of_mem_filter hkvL_in
  have hkvL_range := List.of_mem_filter hkvL_in
  rw [Bool.and_eq_true] at hkvL_range
  obtain ⟨hL_ge, hL_lt⟩ := hkvL_range
  rw [hkvL_eq] at hL_ge hL_lt
  obtain ⟨hL_ne, hL_bytes⟩ := hkeys kvL hkvL_st
  rw [hkvL_eq] at hL_ne hL_bytes
  obtain ⟨w, b, hwb⟩ : ∃ w b, lastK = w ++ [b] := by
    rcases List.eq_nil_or_concat lastK with h | ⟨w, b, h⟩
    · exact absurd h hL_ne
    · exact ⟨w, b, by rw [h, List.concat_eq_append]⟩
  have hb : b < 255 := hL_bytes b (by rw [hwb]; simp)
  have hnk : next_key lastK = w ++ [b + 1] := by rw [hwb]; exact next_key_snoc w b hb
  have hprog : lexLt lastK (next_key lastK) = true := by
    rw [hnk, hwb, lexLt_append_same]
    exact lexLt_cons_of_lt _ _ (Nat.lt_succ_self b)
  unfold inRange
  rw [List.filter_filter]
  apply List.filter_congr
  intro kv hkv
  cases hend : lexLt kv.1 endKey with
  | false => simp [hend]
  | true =>
    simp only [hend, Bool.and_true, Bool.true_and]
    cases hgt : lexLt lastK kv.1 with
    | true =>
      have hge : lexLe startKey kv.1 = true := lexLe_of_le_of_lt hL_ge hgt
      simp only [hgt, hge, Bool.true_and, Bool.and_true]
      unfold lexLe
      simp only [Bool.not_eq_true']
      cases hbet : lexLt kv.1 (next_key lastK) with
      | false => rfl
      | true =>
        exfalso
        rw [hnk] at hbet
        rw [hwb] at hgt
        obtain ⟨s, hs, hx⟩ := between_snoc w b kv.1 hgt hbet
        have habs := hnoext kvL hkvL_st kv hkv (by rw [hkvL_eq]; exact hL_lt) hend
        apply habs
        constructor
        · rw [hkvL_eq, hwb, hx, List.take_left]
        · rw [hkvL_eq, hwb, hx]
          simp only [List.length_append, List.length_cons, List.length_nil]
          have h0 : 0 < s.length := List.length_pos.mpr hs
          omega
    | false =>
      simp only [hgt, Bool.false_and, Bool.and_false]
      unfold lexLe
      have hlt : lexLt kv.1 (next_key lastK) = true := by
        rcases lexLt_trichotomy kv.1 lastK with h | h | h
        · exact lexLt_trans h hprog
        · rw [h]; exact hprog
        · rw [h] at hgt; cases hgt
      rw [hlt]
      rfl

/-- The paged scan loop of `query_entity_id_vec` collects exactly the values of
the in-range rows, given enough fuel, a sorted store, non-empty keys free of
`0xFF` bytes, and no in-range key being a proper byte-extension of another
(the condition under which the `next_key` page advance skips nothing). -/
theorem queryLoop_exact (st : Store) (endKey : Bytes)
    (hsort : st.Pairwise (fun u v => lexLt u.1 v.1 = true))
    (hkeys : ∀ kv ∈ st, kv.1 ≠ [] ∧ ∀ c ∈ kv.1, c < 255)
    (hnoext : ∀ kv1 ∈ st, ∀ kv2 ∈ st, lexLt kv1.1 endKey = true → lexLt kv2.1 endKey = true →
        ¬(kv2.1.take kv1.1.length = kv1.1 ∧ kv1.1.length < kv2.1.length)) :
    ∀ (fuel : Nat) (startKey : Bytes), (inRange st startKey endKey).length < fuel →
    queryLoop fuel st startKey endKey = (inRange st startKey endKey).map (·.2) := by
  intro fuel
  induction fuel with
  | zero => intro s h; exact absurd h (Nat.not_lt_zero _)
  | succ fuel ih =>
    intro startKey hlen
    cases hlast : (scanPage st startKey endKey 128).getLast? with
    | none =>
      have hemp : (inRange st startKey endKey).take 128 = [] :=
        List.getLast?_eq_none_iff.mp hlast
      have hR : inRange st startKey endKey = [] := by
        rcases List.take_eq_nil_iff.mp hemp with h | h
        · exact absurd h (by norm_num)
        · exact h
      simp only [queryLoop, hlast]
      rw [hR]
      rfl
    | some lastKv =>
      have hne : (inRange st startKey endKey).take 128 ≠ [] := by
        intro hh
        have hlast2 : ((inRange st startKey endKey).take 128).getLast? = some lastKv := hlast
        rw [hh] at hlast2
        cases hlast2
      have hlast2 : ((inRange st startKey endKey).take 128).getLast? = some lastKv := hlast
      rw [List.getLast?_eq_getLast _ hne] at hlast2
      have hlastv : lastKv = ((inRange st startKey endKey).take 128).getLast hne :=
        (Option.some.injEq _ _ ▸ hlast2).symm
      simp only [queryLoop, hlast]
      rw [show scanPage st startKey endKey 128 = (inRange st startKey endKey).take 128 from rfl]
      by_cases hshort : ((inRange st startKey endKey).take 128).length < 128
      · rw [if_pos hshort]
        have htake : (inRange st startKey endKey).take 128 = inRange st startKey endKey := by
          apply List.take_of_length_le
          rw [List.length_take] at hshort
          omega
        show ((inRange st startKey endKey).take 128).map (·.2) = _
        rw [htake]
      · rw [if_neg hshort]
        have hlen128 : 128 ≤ (inRange st startKey endKey).length := by
          rw [List.length_take] at hshort
          omega
        have hmemtake : lastKv ∈ (inRange st startKey endKey).take 128 := by
          rw [hlastv]; exact List.getLast_mem hne
        have hmemR : lastKv ∈ inRange st startKey endKey := List.mem_of_mem_take hmemtake
        have hadv := inRange_advance st startKey endKey lastKv.1 hsort hkeys hnoext
          (List.mem_map_of_mem _ hmemR)
        have hpR : (inRange st startKey endKey).Pairwise (fun u v => lexLt u.1 v.1 = true) :=
          hsort.sublist (List.filter_sublist _)
        have hsplit := List.take_append_drop 128 (inRange st startKey endKey)
        have hdrop : (inRange st startKey endKey).filter (fun kv => lexLt lastKv.1 kv.1)
            = (inRange st startKey endKey).drop 128 := by
          conv_lhs => rw [← hsplit]
          rw [List.filter_append]
          have hp_take : ((inRange st startKey endKey).take 128).Pairwise
              (fun u v => lexLt u.1 v.1 = true) := hpR.sublist (List.take_sublist _ _)
          have h1 : ((inRange st startKey endKey).take 128).filter
              (fun kv => lexLt lastKv.1 kv.1) = [] := by
            rw [List.filter_eq_nil_iff]
            intro a ha
            rcases pairwise_getLast _ _ hne hp_take a ha with h | h
            · rw [h, ← hlastv]
              simp [lexLt_irrefl]
            · rw [← hlastv] at h
              simp [lexLt_asymm h]
          have h2 : ((inRange st startKey endKey).drop 128).filter
              (fun kv => lexLt lastKv.1 kv.1) = (inRange st startKey endKey).drop 128 := by
            rw [List.filter_eq_self]
            intro a ha
            have hcross : ∀ x ∈ (inRange st startKey endKey).take 128,
                ∀ y ∈ (inRange st startKey endKey).drop 128, lexLt x.1 y.1 = true := by
              have hpR2 := hpR
              conv at hpR2 => rw [← hsplit]
              rw [List.pairwise_append] at hpR2
              exact hpR2.2.2
            have := hcross lastKv hmemtake a ha
            simpa using this
          rw [h1, h2, List.nil_append]
        have hb : (inRange st (next_key lastKv.1) endKey).length < fuel := by
          rw [hadv, hdrop]
          have := List.length_drop 128 (inRange st startKey endKey)
          omega
        rw [ih (next_key lastKv.1) hb]
        rw [hadv, hdrop]
        show ((inRange st startKey endKey).take 128).map (·.2) ++ _ = _
        rw [← List.map_append, hsplit]

/-- C3: the claim that a row whose encoded value equals `hi` exactly is not
returned is refuted: with a single index row at value `"b"` for entity `e-1`,
the filter `Range("a", "b")` returns `e-1` — the scan's end bound
`component/index/T/f/b/~` lies above the row's key because the entity text
sorts below `"~"`, even though `encode = "b"` is not strictly below `hi = "b"`. -/
theorem range_scan_upper_bound_inclusive :
    query_entity_id_vec
        [(component_index_path (str "T") (str "f") (str "b") (str "e-1"), str "e-1")]
        (str "T") (str "f") (BoundCondition.Range (str "a") (str "b"))
      = [str "e-1"] ∧ lexLt (str "b") (str "b") = false := by decide

/-- C3 (amended): for `Range(lo, hi)` the query returns exactly the values of
the rows whose key lies in the scan range
`[component/index/T/f/lo/""], [component/index/T/f/hi/~)` — under a sorted
store with non-empty `0xFF`-free keys where no in-range key is a proper
byte-extension of another (the page advance by `next_key` skips exactly such
extensions) — and membership of an index row `component/index/T/f/v/e` in that
range is the value-level condition `lo ++ "/" ≤ v ++ "/" ++ e < hi ++ "/~"`:
inclusive of `v = hi` for every entity text sorting below `"~"`, not the
half-open `encode < hi` of the claim (see `range_scan_upper_bound_inclusive`). -/
theorem range_scan_amended (st : Store) (tp field lo hi : Bytes)
    (hsort : st.Pairwise (fun u v => lexLt u.1 v.1 = true))
    (hkeys : ∀ kv ∈ st, kv.1 ≠ [] ∧ ∀ c ∈ kv.1, c < 255)
    (hnoext : ∀ kv1 ∈ st, ∀ kv2 ∈ st,
        lexLt kv1.1 (component_index_path tp field hi (str "~")) = true →
        lexLt kv2.1 (component_index_path tp field hi (str "~")) = true →
        ¬(kv2.1.take kv1.1.length = kv1.1 ∧ kv1.1.length < kv2.1.length)) :
    query_entity_id_vec st tp field (BoundCondition.Range lo hi)
      = (inRange st (component_index_path tp field lo [])
          (component_index_path tp field hi (str "~"))).map (·.2)
    ∧ (∀ v e : Bytes,
        (lexLe (component_index_path tp field lo []) (component_index_path tp field v e) &&
          lexLt (component_index_path tp field v e) (component_index_path tp field hi (str "~")))
        = (lexLe (lo ++ str "/") (v ++ str "/" ++ e) &&
           lexLt (v ++ str "/" ++ e) (hi ++ str "/" ++ str "~"))) := by
  constructor
  · show queryLoop (st.length + 1) st (component_index_path tp field lo [])
        (component_index_path tp field hi (str "~")) = _
    exact queryLoop_exact st _ hsort hkeys hnoext (st.length + 1) _
      (Nat.lt_succ_of_le (List.length_filter_le _ _))
  · intro v e
    have h1 : component_index_path tp field v e
        = (str "component/index/" ++ tp ++ str "/" ++ field ++ str "/") ++ (v ++ str "/" ++ e) := by
      simp [component_index_path, List.append_assoc]
    have h2 : component_index_path tp field lo []
        = (str "component/index/" ++ tp ++ str "/" ++ field ++ str "/") ++ (lo ++ str "/") := by
      simp [component_index_path, List.append_assoc]
    have h3 : component_index_path tp field hi (str "~")
        = (str "component/index/" ++ tp ++ str "/" ++ field ++ str "/")
            ++ (hi ++ str "/" ++ str "~") := by
      simp [component_index_path, List.append_assoc]
    rw [h1, h2, h3, lexLe_append_same, lexLt_append_same]

/-- Witness for `range_scan_amended`: a two-row index store over values
`"010"`, `"020"` with the range `("0", "1")`, returning both entities. -/
theorem range_scan_amended_witness :
    query_entity_id_vec
        [(component_index_path (str "T") (str "f") (str "010") (str "e-1"), str "e-1"),
         (component_index_path (str "T") (str "f") (str "020") (str "e-2"), str "e-2")]
        (str "T") (str "f") (BoundCondition.Range (str "0") (str "1"))
      = [str "e-1", str "e-2"] := by
  have h := (range_scan_amended
    [(component_index_path (str "T") (str "f") (str "010") (str "e-1"), str "e-1"),
     (component_index_path (str "T") (str "f") (str "020") (str "e-2"), str "e-2")]
    (str "T") (str "f") (str "0") (str "1")
    (by decide) (by decide) (by decide)).1
  rw [h]
  decide

/-- Witness for `entity_list_get_existing_only`: of the two listed entities only
`e-2` has a payload row, so the result is the single decoded value `[7]` —
shorter than the id list and aligned with nothing. -/
theorem entity_list_get_existing_only_witness :
    entity_list_get [(component_data_path (str "T") (str "e-2"), [7])] (str "T")
        [str "e-1", str "e-2"] (fun b => Except.ok (id b))
      = Except.ok [[7]] := by
  have h := (entity_list_get_existing_only (id : Bytes → Bytes)
    [(component_data_path (str "T") (str "e-2"), [7])] (str "T")
    [str "e-1", str "e-2"]).1
  rw [h]
  rfl
